import Mathlib

/-!
Shallow embedding of the bearing/bearing-rate/range lookup engine of the
`plotseamap` repository (directory `src/bearing`): the binning scheme, the
count-cube builder (`build_lut.py`, `build_range_lut.py`), the probability
normalizer, the runtime lookup functions (`lookup_range.py`,
`demo/get_range.py`, `lookup_bcr.py`, `demo/get_bcr.py`), the summary
statistics of `lookup_range.py:main`, and the rate-bin resolution of the
validation harness (`demo/evaluate_bcr.py`).

Machine floats are modelled exactly over `ℚ`; numpy arrays over lists or,
for the 3-D histogram accumulation, over index functions with explicit
shape bounds.
-/

namespace PlotSeaMap

/-- `np.searchsorted(edges, x, side="right")` on an ascending `edges`:
the insertion index, i.e. the length of the maximal prefix of elements
`≤ x` (numpy's documented contract: `all(a[:i] <= v)` and `all(a[i:] > v)`). -/
def searchsortedRight (edges : List ℚ) (x : ℚ) : ℕ :=
  (edges.takeWhile (fun e => decide (e ≤ x))).length

/-- `np.cumsum` with a running accumulator. -/
def cumsumFrom (acc : ℚ) : List ℚ → List ℚ
  | [] => []
  | x :: xs => (acc + x) :: cumsumFrom (acc + x) xs

/-- `pdf.cumsum()` (numpy cumulative sum, same length as the input). -/
def cumsum (xs : List ℚ) : List ℚ := cumsumFrom 0 xs

/-- Interior loop of `np.interp`: assumes the query `x` is `≥` the first
sample point; walks the ascending sample points, interpolating linearly
inside the segment `[x0, x1)` that contains `x` (an exact hit on a sample
point returns its value; with duplicated sample points the last duplicate
wins, as in numpy's binary search) and returning the last value once `x`
passes the end. -/
def interpGo (x : ℚ) : List (ℚ × ℚ) → ℚ
  | [] => 0
  | [(_, y0)] => y0
  | (x0, y0) :: (x1, y1) :: rest =>
    if x < x1 then
      (if x = x0 then y0 else y0 + (x - x0) * (y1 - y0) / (x1 - x0))
    else interpGo x ((x1, y1) :: rest)

/-- `np.interp(x, xp, fp)` with the sample points zipped into one list:
clamps to `fp[0]` below the first sample point, otherwise defers to
`interpGo`. -/
def npInterp (x : ℚ) : List (ℚ × ℚ) → ℚ
  | [] => 0
  | (x0, y0) :: rest => if x < x0 then y0 else interpGo x ((x0, y0) :: rest)

/-- `np.arange(0, stop, step)` for positive `step`: the
`⌈stop/step⌉` values `0, step, 2·step, …` (numpy's documented length). -/
def npArange0 (stop step : ℚ) : List ℚ :=
  (List.range (Int.toNat ⌈stop / step⌉)).map (fun (k : ℕ) => (k : ℚ) * step)

/-- Python's `%` on reals with a positive modulus: result in `[0, m)`. -/
def pymod (x m : ℚ) : ℚ := x - m * ⌊x / m⌋

/-- Azimuth bin of the lookup paths
(`lookup_range.py:60`, `get_range.py:78`, `get_bcr.py:74`):
`int((theta % 360) // az_bin_deg)`. -/
def azimuthToBin (azw θ : ℚ) : ℤ := ⌊pymod θ 360 / azw⌋

/-- Azimuth bin of the build paths (`build_lut.py:82,114`): the builder
computes `bearing_bin = (bearing // az) * az` and then divides the label
back, i.e. `⌊bearing / az⌋`, with no wrap. -/
def bearingBinBuild (azw b : ℚ) : ℤ := ⌊b / azw⌋

/-- Distance bin of the build paths (`build_lut.py:96-100`,
`build_range_lut.py:104-108`): `(dist // step).clip(upper=nVec-1)` where
`nVec` is the length of `range_vec`. -/
def distBin (w : ℚ) (nVec : ℕ) (r : ℚ) : ℤ := min ⌊r / w⌋ ((nVec : ℤ) - 1)

/-- `range_vec = np.arange(0, r_max, r_step) + r_step / 2`
(`build_lut.py:95`, `build_range_lut.py:103`). -/
def rangeVec (rmax w : ℚ) : List ℚ := (npArange0 rmax w).map (fun x => x + w / 2)

/-- Guarded row normalization (`build_range_lut.py:130-134`): the output
buffer is zero-initialized (`np.zeros_like`) and `np.divide(..., out=raw,
where=sums != 0)` writes `count / sum` only where the row sum is nonzero,
so an all-zero count row stays identically zero. -/
def normalizeRow (row : List ℕ) : List ℚ :=
  if row.sum = 0 then row.map (fun (_ : ℕ) => (0 : ℚ))
  else row.map (fun (c : ℕ) => (c : ℚ) / (row.sum : ℚ))

/-- Unguarded row normalization (`build_lut.py:121-122`):
`np.divide(counts, sums_r, where=sums_r != 0)` with **no** `out=`
argument. Numpy then allocates the output uninitialized and leaves the
entries where the mask is false (the all-zero count rows) at whatever the
fresh buffer held; `mem` stands for those unspecified buffer contents. -/
def normalizeRowUninit (row : List ℕ) (mem : List ℚ) : List ℚ :=
  if row.sum = 0 then mem
  else row.map (fun (c : ℕ) => (c : ℚ) / (row.sum : ℚ))

/-- Rate bin assigned during the build (`build_lut.py:86-91,108-115`,
`build_range_lut.py:91-99,117-126`): `pd.cut(bearing_rate,
bins=rate_edges, right=False)` places a value into the left-closed
right-open interval `[edges[i], edges[i+1])` — equivalently bin
`searchsortedRight edges ω − 1` — and yields NaN (the row is then
skipped) when the value lies outside `[edges[0], edges[-1])`. -/
def rateBinBuild (edges : List ℚ) (ω : ℚ) : Option ℕ :=
  let s := searchsortedRight edges ω
  if s = 0 ∨ s = edges.length then none else some (s - 1)

/-- Rate-bin resolution of `lookup_range.py:63-72`: binary search with
`side="right"` over `rate_edges` applied to `abs(omega)`, minus one;
the sentinel `None` is produced when the index falls outside
`[0, n_rate)` (where `n_rate = prob_cube.shape[1]`). -/
def rateToBinAbs (edges : List ℚ) (nRate : ℕ) (ω : ℚ) : Option ℕ :=
  let s : ℤ := (searchsortedRight edges |ω| : ℤ) - 1
  if s < 0 ∨ (nRate : ℤ) ≤ s then none else some s.toNat

/-- Rate-bin resolution of the validation harness
(`demo/evaluate_bcr.py:31-33`): `np.searchsorted(edges, abs(ω),
side="right") - 1`, the observation being skipped when the index falls
outside `[0, n_rate)`. -/
def evalTrueRateBin (edges : List ℚ) (ω : ℚ) : ℤ :=
  (searchsortedRight edges |ω| : ℤ) - 1

/-- The persisted lookup table (the pickled record written by
`build_range_lut.py:154-164` / `build_lut.py:137-147`): `params`
(`az_bin_deg`, `rate_edges`, `range_vec`) plus the count cube,
`P(r | θ, ω)` and `P(ω | θ)`. Cubes are indexed `[azimuth][rate][range]`. -/
structure Lut where
  az_bin_deg : ℚ
  rate_edges : List ℚ
  range_vec : List ℚ
  counts_cube : List (List (List ℕ))
  prob_cube : List (List (List ℚ))
  prob_rate_cube : List (List ℚ)

/-- `cube.shape[1]` of a rectangular 3-D array held as nested lists. -/
def shape1 (cube : List (List (List ℚ))) : ℕ := (cube.headD []).length

/-- Rectangularity of a 3-D nested-list array: the shape invariant a
numpy array of shape `(n₁, n₂, n₃)` carries implicitly. -/
def Rect3 (n1 n2 n3 : ℕ) (cube : List (List (List ℕ))) : Prop :=
  cube.length = n1 ∧
  ∀ plane ∈ cube, plane.length = n2 ∧ ∀ row ∈ plane, row.length = n3

/-- `lookup_range_pdf(theta, omega, lut)` (`lookup_range.py:51-80`):
azimuth bin from `(theta % 360) // az_bin_deg`, rate bin by right-sided
binary search on `abs(omega)` (sentinel if outside `[0, n_rate)`), then
the `prob_cube` row; `(None, None)` as well when that row sums to zero,
else `(range_vec, pdf)`. -/
def lookup_range_pdf (θ ω : ℚ) (lut : Lut) : Option (List ℚ × List ℚ) :=
  let be_i := azimuthToBin lut.az_bin_deg θ
  match rateToBinAbs lut.rate_edges (shape1 lut.prob_cube) ω with
  | none => none
  | some ra_i =>
    let pdf := (lut.prob_cube.getD be_i.toNat []).getD ra_i []
    if pdf.sum = 0 then none else some (lut.range_vec, pdf)

/-- `get_range_distribution(theta, omega, lut)` (`demo/get_range.py:54-101`):
like `lookup_range_pdf` but the binary search runs on the **signed**
`omega`, the azimuth index is also bounds-checked against
`prob_cube.shape[0]`, and the raw count row is returned alongside. -/
def get_range_distribution (θ ω : ℚ) (lut : Lut) :
    Option (List ℚ × List ℚ × List ℕ) :=
  let az_index := azimuthToBin lut.az_bin_deg θ
  let rate_index : ℤ := (searchsortedRight lut.rate_edges ω : ℤ) - 1
  if az_index < 0 ∨ (lut.prob_cube.length : ℤ) ≤ az_index ∨
     rate_index < 0 ∨ (shape1 lut.prob_cube : ℤ) ≤ rate_index then none
  else
    let pdf := (lut.prob_cube.getD az_index.toNat []).getD rate_index.toNat []
    let counts := (lut.counts_cube.getD az_index.toNat []).getD rate_index.toNat []
    if pdf.sum = 0 then none else some (lut.range_vec, pdf, counts)

/-- `get_bcr_distribution(bearing, lut)` (`demo/get_bcr.py:45-89` and
`lookup_bcr.py:48-90`): pairs of consecutive rate edges, then — unless
the azimuth index falls outside `prob_rate_cube.shape[0]` — the
`prob_rate_cube` row and the count cube row summed over the range axis.
The `counts_cube` key is present in every built table, so the embedded
record carries it directly (the scripts also tolerate its absence,
returning `None` for the counts). -/
def get_bcr_distribution (θ : ℚ) (lut : Lut) :
    List (ℚ × ℚ) × Option (List ℚ) × Option (List ℕ) :=
  let intervals := lut.rate_edges.zip lut.rate_edges.tail
  let az_index := azimuthToBin lut.az_bin_deg θ
  if az_index < 0 ∨ (lut.prob_rate_cube.length : ℤ) ≤ az_index then
    (intervals, none, none)
  else
    (intervals,
     some (lut.prob_rate_cube.getD az_index.toNat []),
     some ((lut.counts_cube.getD az_index.toNat []).map List.sum))

/-- One input row of the builders: the `bearing`, `bearing_rate` and
distance columns of the trajectory table. -/
structure BuildRow where
  bearing : ℚ
  rate : ℚ
  dist : ℚ

/-- Bumps one cell of the count cube held as an index function. -/
def bump (cube : ℕ → ℕ → ℕ → ℕ) (i j k : ℕ) : ℕ → ℕ → ℕ → ℕ :=
  fun a b c => if a = i ∧ b = j ∧ c = k then cube a b c + 1 else cube a b c

/-- One row's contribution to the histogram: skipped when the rate fell
outside the edges (NaN label from `pd.cut`), otherwise one count into
the cell of its three bin indices. -/
def buildStep (azw rstep : ℚ) (nVec : ℕ) (edges : List ℚ)
    (cube : ℕ → ℕ → ℕ → ℕ) (row : BuildRow) : ℕ → ℕ → ℕ → ℕ :=
  match rateBinBuild edges row.rate with
  | none => cube
  | some j =>
    bump cube (bearingBinBuild azw row.bearing).toNat j
      (distBin rstep nVec row.dist).toNat

/-- The single-pass histogram accumulation of `build_lut.py:107-116` /
`build_range_lut.py:115-126`. (The scripts group equal index triples
first and write each group's size; since distinct groups hit distinct
cells, that equals this per-row accumulation.) -/
def buildCounts (azw rstep : ℚ) (nVec : ℕ) (edges : List ℚ)
    (rows : List BuildRow) : ℕ → ℕ → ℕ → ℕ :=
  rows.foldl (buildStep azw rstep nVec edges) (fun _ _ _ => 0)

/-- Sum of all cells of a count cube of shape `(nAz, nRate, nR)`. -/
def totalCount (nAz nRate nR : ℕ) (cube : ℕ → ℕ → ℕ → ℕ) : ℕ :=
  ∑ a ∈ Finset.range nAz, ∑ b ∈ Finset.range nRate, ∑ c ∈ Finset.range nR,
    cube a b c

/-- `(range_vec * pdf).sum()` (`lookup_range.py:114`). -/
def expectation (support pdf : List ℚ) : ℚ :=
  ((support.zip pdf).map (fun p => p.1 * p.2)).sum

/-- `np.interp(q, pdf.cumsum(), range_vec)` (`lookup_range.py:115-116`). -/
def quantile (q : ℚ) (support pdf : List ℚ) : ℚ :=
  npInterp q ((cumsum pdf).zip support)

/-- `np.argsort(pdf)[-5:][::-1]` (`lookup_range.py:121`): indices sorted
ascending by pdf value, last five of them, reversed. numpy's default sort
is unstable, so the order among tied values is implementation-defined; a
stable insertion sort stands in, and nothing proved below depends on the
tie order. -/
def top5 (pdf : List ℚ) : List ℕ :=
  (((((List.range pdf.length).map (fun i => (i, pdf.getD i 0))).insertionSort
      (fun a b => a.2 ≤ b.2)).map Prod.fst).reverse).take 5

/-- A tiny concrete lookup table for evaluating the query paths: two
azimuth bins of 180°, rate edges `[-1, 0, 1]`, two 10 m range bins.
Azimuth bin 0 has no observations at all; azimuth bin 1 has one
observation per rate bin. `prob_cube` and `prob_rate_cube` are exactly
what the guarded builder produces from `counts_cube`. -/
def lutDemo : Lut :=
  ⟨180, [-1, 0, 1], [5, 15],
   [[[0, 0], [0, 0]], [[1, 0], [0, 1]]],
   [[[0, 0], [0, 0]], [[1, 0], [0, 1]]],
   [[0, 0], [1/2, 1/2]]⟩

/-- Both coordinates nondecreasing along a list of interpolation sample
points — the shape `np.interp` receives from a cumulative sum paired
with ascending bin centers. -/
def Mono2 (pts : List (ℚ × ℚ)) : Prop :=
  List.Chain' (fun p q => p.1 ≤ q.1 ∧ p.2 ≤ q.2) pts

/-! ## Helper lemmas -/

theorem pymod_nonneg (x m : ℚ) (hm : 0 < m) : 0 ≤ pymod x m := by
  have h : (⌊x / m⌋ : ℚ) ≤ x / m := Int.floor_le _
  have := (mul_le_mul_left hm).mpr h
  rw [mul_div_cancel₀ _ (ne_of_gt hm)] at this
  simpa [pymod, sub_nonneg] using this

theorem pymod_lt (x m : ℚ) (hm : 0 < m) : pymod x m < m := by
  have h : x / m < ⌊x / m⌋ + 1 := Int.lt_floor_add_one _
  have := (mul_lt_mul_left hm).mpr h
  rw [mul_div_cancel₀ _ (ne_of_gt hm)] at this
  have h2 : x < m * ⌊x / m⌋ + m := by linarith [this, (mul_add m (⌊x / m⌋ : ℚ) 1)]
  simpa [pymod, sub_lt_iff_lt_add'] using h2

theorem floor_div_nonneg (azw x : ℚ) (ha : 0 < azw) (hx : 0 ≤ x) :
    0 ≤ ⌊x / azw⌋ :=
  Int.floor_nonneg.mpr (div_nonneg hx (le_of_lt ha))

theorem floor_div_lt (azw x : ℚ) (n : ℕ) (ha : 0 < azw) (hx : x < azw * n) :
    ⌊x / azw⌋ < (n : ℤ) := by
  apply Int.floor_lt.mpr
  rw [div_lt_iff₀ ha]
  push_cast
  linarith

theorem azimuthToBin_nonneg (azw θ : ℚ) (ha : 0 < azw) :
    0 ≤ azimuthToBin azw θ :=
  floor_div_nonneg azw _ ha (pymod_nonneg θ 360 (by norm_num))

theorem azimuthToBin_lt (azw θ : ℚ) (nAz : ℕ) (ha : 0 < azw)
    (hdiv : azw * nAz = 360) : azimuthToBin azw θ < nAz := by
  apply floor_div_lt azw _ nAz ha
  rw [hdiv]
  exact pymod_lt θ 360 (by norm_num)

theorem searchsortedRight_le_length (edges : List ℚ) (x : ℚ) :
    searchsortedRight edges x ≤ edges.length :=
  (List.takeWhile_sublist _).length_le

theorem searchsortedRight_getD_le (edges : List ℚ) (x : ℚ) :
    ∀ j, j < searchsortedRight edges x → edges.getD j 0 ≤ x := by
  induction edges with
  | nil => intro j hj; simp [searchsortedRight] at hj
  | cons e es ih =>
    intro j hj
    by_cases he : e ≤ x
    · cases j with
      | zero => simpa using he
      | succ j =>
        simp only [searchsortedRight, List.takeWhile] at hj
        rw [decide_eq_true he] at hj
        simp only [List.length_cons, Nat.succ_lt_succ_iff] at hj
        simpa using ih j hj
    · simp only [searchsortedRight, List.takeWhile] at hj
      rw [decide_eq_false he] at hj
      simp at hj

theorem searchsortedRight_lt_getD (edges : List ℚ) (x : ℚ)
    (h : searchsortedRight edges x < edges.length) :
    x < edges.getD (searchsortedRight edges x) 0 := by
  induction edges with
  | nil => simp [searchsortedRight] at h
  | cons e es ih =>
    by_cases he : e ≤ x
    · have hunf : searchsortedRight (e :: es) x = searchsortedRight es x + 1 := by
        simp [searchsortedRight, List.takeWhile, decide_eq_true he]
      rw [hunf]
      rw [hunf, List.length_cons, Nat.add_lt_add_iff_right] at h
      simpa using ih h
    · have hunf : searchsortedRight (e :: es) x = 0 := by
        simp [searchsortedRight, List.takeWhile, decide_eq_false he]
      rw [hunf]
      simpa using lt_of_not_le he

theorem getLastD_eq_getD (l : List ℚ) (d : ℚ) (h : l ≠ []) :
    l.getLastD d = l.getD (l.length - 1) 0 := by
  induction l with
  | nil => simp at h
  | cons a t ih =>
    cases t with
    | nil => simp
    | cons b t' => simpa using ih (by simp)

theorem sorted_getD_mono (edges : List ℚ) (hs : edges.Sorted (· < ·))
    {i j : ℕ} (hij : i ≤ j) (hj : j < edges.length) :
    edges.getD i 0 ≤ edges.getD j 0 := by
  rcases lt_or_eq_of_le hij with h | rfl
  · have := List.pairwise_iff_get.mp hs ⟨i, lt_trans h hj⟩ ⟨j, hj⟩ h
    rw [List.getD_eq_getElem _ _ (lt_trans h hj), List.getD_eq_getElem _ _ hj]
    exact le_of_lt this
  · exact le_refl _

/-- On an ascending edge list, the right-sided search returns `0` exactly
for queries below the first edge. -/
theorem searchsortedRight_eq_zero_iff (edges : List ℚ) (x : ℚ)
    (hne : edges ≠ []) :
    searchsortedRight edges x = 0 ↔ x < edges.headD 0 := by
  constructor
  · intro h0
    have hlen : 0 < edges.length := List.length_pos.mpr hne
    have := searchsortedRight_lt_getD edges x (by omega)
    rw [h0] at this
    cases edges with
    | nil => simp at hne
    | cons e es => simpa using this
  · intro hx
    by_contra h
    have h1 : 0 < searchsortedRight edges x := Nat.pos_of_ne_zero h
    have := searchsortedRight_getD_le edges x 0 h1
    cases edges with
    | nil => simp at hne
    | cons e es => simp at this; simp at hx; linarith

/-- On a strictly ascending edge list, the right-sided search returns the
full length exactly for queries at or above the last edge. -/
theorem searchsortedRight_eq_length_iff (edges : List ℚ) (x : ℚ)
    (hs : edges.Sorted (· < ·)) (hne : edges ≠ []) :
    searchsortedRight edges x = edges.length ↔ edges.getLastD 0 ≤ x := by
  have hlen : 0 < edges.length := List.length_pos.mpr hne
  rw [getLastD_eq_getD edges 0 hne]
  constructor
  · intro h
    apply searchsortedRight_getD_le edges x
    omega
  · intro hx
    by_contra h
    have hlt : searchsortedRight edges x < edges.length :=
      lt_of_le_of_ne (searchsortedRight_le_length edges x) h
    have h1 := searchsortedRight_lt_getD edges x hlt
    have h2 : edges.getD (searchsortedRight edges x) 0 ≤ edges.getD (edges.length - 1) 0 :=
      sorted_getD_mono edges hs (by omega) (by omega)
    linarith

theorem normalizeRow_length (row : List ℕ) :
    (normalizeRow row).length = row.length := by
  unfold normalizeRow
  split <;> rw [List.length_map]

theorem sum_map_div (row : List ℕ) (s : ℚ) :
    (row.map (fun (c : ℕ) => (c : ℚ) / s)).sum = ((row.sum : ℕ) : ℚ) / s := by
  induction row with
  | nil => simp
  | cons c cs ih =>
    rw [List.map_cons, List.sum_cons, ih, List.sum_cons, Nat.cast_add, add_div]

theorem normalizeRow_sum (row : List ℕ) :
    (normalizeRow row).sum = if row.sum = 0 then 0 else 1 := by
  by_cases h : row.sum = 0
  · rw [if_pos h]
    simp [normalizeRow, h]
  · rw [if_neg h]
    rw [normalizeRow, if_neg h, sum_map_div]
    exact div_self (Nat.cast_ne_zero.mpr h)

theorem normalizeRow_sum_eq_zero_iff (row : List ℕ) :
    (normalizeRow row).sum = 0 ↔ row.sum = 0 := by
  rw [normalizeRow_sum]
  split <;> simp_all

theorem getD_map_normalizeRow (planes : List (List ℕ)) (i : ℕ)
    (h : i < planes.length) :
    (planes.map normalizeRow).getD i [] = normalizeRow (planes.getD i []) := by
  rw [List.getD_eq_getElem _ _ (by simpa using h), List.getD_eq_getElem _ _ h,
    List.getElem_map]

theorem getD_map_map_normalizeRow (cube : List (List (List ℕ))) (i : ℕ)
    (h : i < cube.length) :
    (cube.map (List.map normalizeRow)).getD i [] =
      (cube.getD i []).map normalizeRow := by
  rw [List.getD_eq_getElem _ _ (by simpa using h), List.getD_eq_getElem _ _ h,
    List.getElem_map]

theorem getD_mem (l : List (List ℕ)) (i : ℕ) (h : i < l.length) :
    l.getD i [] ∈ l := by
  rw [List.getD_eq_getElem _ _ h]
  exact List.getElem_mem h

theorem getD_mem' (l : List (List (List ℕ))) (i : ℕ) (h : i < l.length) :
    l.getD i [] ∈ l := by
  rw [List.getD_eq_getElem _ _ h]
  exact List.getElem_mem h

/-! ## Claim theorems -/

/-- C7: `azimuth_to_bin` wraps the bearing into `[0, 360)` by modulo
before integer division, so `θ` and `θ + 360` resolve to the identical
bin, and the bin index always lies in `[0, n_az)` when the azimuth bin
width tiles 360° into `n_az` bins. -/
theorem azimuth_wraparound (azw θ : ℚ) (nAz : ℕ) (ha : 0 < azw)
    (hdiv : azw * nAz = 360) :
    azimuthToBin azw (θ + 360) = azimuthToBin azw θ ∧
    0 ≤ azimuthToBin azw θ ∧ azimuthToBin azw θ < nAz := by
  refine ⟨?_, azimuthToBin_nonneg azw θ ha, azimuthToBin_lt azw θ nAz ha hdiv⟩
  have hfl : ⌊(θ + 360) / 360⌋ = ⌊θ / 360⌋ + 1 := by
    rw [add_div, div_self (by norm_num : (360 : ℚ) ≠ 0), Int.floor_add_one]
  unfold azimuthToBin pymod
  rw [hfl]
  push_cast
  ring_nf

/-- C7 witness: evaluated at `az_bin_deg = 5`, `θ = -30`,
`n_az = 72`. -/
theorem azimuth_wraparound_witness :
    0 < (5 : ℚ) ∧ (5 : ℚ) * (72 : ℕ) = 360 ∧
    (azimuthToBin 5 (-30 + 360) = azimuthToBin 5 (-30) ∧
     0 ≤ azimuthToBin 5 (-30) ∧ azimuthToBin 5 (-30) < (72 : ℕ)) :=
  ⟨by norm_num, by norm_num,
   azimuth_wraparound 5 (-30) 72 (by norm_num) (by norm_num)⟩

/-- C8: the distance bin is `⌊r / range_bin_width⌋` clamped to
`n_r − 1`; it is always a valid bin index for `r ≥ 0`, every
`r ≥ range_max` lands in the last bin, and the `range_vec` center of bin
`k` is `k · range_bin_width + range_bin_width / 2`. -/
theorem range_bin_clamped (w rmax r : ℚ) (nR : ℕ) (hw : 0 < w)
    (hm : 0 < rmax) (hr : 0 ≤ r) (hn : nR = (rangeVec rmax w).length) :
    distBin w nR r = min ⌊r / w⌋ ((nR : ℤ) - 1) ∧
    0 ≤ distBin w nR r ∧ distBin w nR r < (nR : ℤ) ∧
    (rmax ≤ r → distBin w nR r = (nR : ℤ) - 1) ∧
    (∀ k : ℕ, k < nR → (rangeVec rmax w).getD k 0 = k * w + w / 2) := by
  have hlen : (rangeVec rmax w).length = Int.toNat ⌈rmax / w⌉ := by
    rw [rangeVec, List.length_map, npArange0, List.length_map, List.length_range]
  have hceil : 0 < ⌈rmax / w⌉ := Int.ceil_pos.mpr (div_pos hm hw)
  have hnR : 0 < nR := by rw [hn, hlen]; omega
  refine ⟨rfl, ?_, ?_, ?_, ?_⟩
  · exact le_min (floor_div_nonneg w r hw hr) (by omega)
  · calc distBin w nR r ≤ (nR : ℤ) - 1 := min_le_right _ _
      _ < nR := by omega
  · intro hge
    have h1 : ((nR : ℤ)) ≤ ⌈rmax / w⌉ := by rw [hn, hlen]; omega
    have h2 : ⌈rmax / w⌉ ≤ ⌊rmax / w⌋ + 1 := Int.ceil_le_floor_add_one _
    have h3 : ⌊rmax / w⌋ ≤ ⌊r / w⌋ := Int.floor_le_floor (by gcongr)
    unfold distBin
    omega
  · intro k hk
    have hk' : k < (rangeVec rmax w).length := by omega
    have hk'' : k < (npArange0 rmax w).length := by
      simpa [rangeVec] using hk'
    have hk''' : k < Int.toNat ⌈rmax / w⌉ := by rw [← hlen]; omega
    rw [List.getD_eq_getElem _ _ hk']
    simp [rangeVec, npArange0, List.getElem_map]

/-- C8 witness: `w = 10`, `range_max = 20` (two bins), `r = 35` clipped
into the last bin. -/
theorem range_bin_clamped_witness :
    0 < (10 : ℚ) ∧ 0 < (20 : ℚ) ∧ 0 ≤ (35 : ℚ) ∧
    2 = (rangeVec 20 10).length ∧
    (distBin 10 2 35 = min ⌊(35 : ℚ) / 10⌋ ((2 : ℤ) - 1) ∧
     0 ≤ distBin 10 2 35 ∧ distBin 10 2 35 < (2 : ℤ) ∧
     ((20 : ℚ) ≤ 35 → distBin 10 2 35 = (2 : ℤ) - 1) ∧
     (∀ k : ℕ, k < 2 → (rangeVec 20 10).getD k 0 = k * 10 + 10 / 2)) :=
  by
  have hn : (2 : ℕ) = (rangeVec 20 10).length := by
    rw [rangeVec, List.length_map, npArange0, List.length_map, List.length_range]
    norm_num
    rfl
  exact ⟨by norm_num, by norm_num, by norm_num, hn,
    range_bin_clamped 10 20 35 2 (by norm_num) (by norm_num) (by norm_num) hn⟩

/-- C10: `lookup_range_pdf` resolves the rate bin from `abs(omega)`
(`lookup_range.py:64`), so it is even in the bearing rate, and the
validation harness (`evaluate_bcr.py:31`) resolves the true rate bin
from `abs(ω)` the same way. -/
theorem lookup_even_in_rate (θ ω : ℚ) (lut : Lut) :
    lookup_range_pdf θ ω lut = lookup_range_pdf θ (-ω) lut ∧
    evalTrueRateBin lut.rate_edges ω = evalTrueRateBin lut.rate_edges (-ω) := by
  constructor
  · unfold lookup_range_pdf rateToBinAbs
    rw [abs_neg]
  · unfold evalTrueRateBin
    rw [abs_neg]

/-- C1: `build_lut.py:122` normalizes with
`np.divide(counts, sums_r, where=sums_r != 0)` and **no** `out=`
argument, so the rows whose count sum is zero keep whatever the freshly
allocated buffer held instead of being identically zero — here buffer
contents `[5, -3, 9]` survive into the probability cube (cells outside
`[0, 1]` included), while the guarded variant of
`build_range_lut.py:132-133` does zero-fill the same row. -/
theorem prob_cube_zero_row_uninitialized :
    ([0, 0, 0] : List ℕ).sum = 0 ∧
    normalizeRowUninit [0, 0, 0] [5, -3, 9] = [5, -3, 9] ∧
    normalizeRowUninit [0, 0, 0] [5, -3, 9] ≠ [0, 0, 0] ∧
    normalizeRow [0, 0, 0] = [0, 0, 0] := by
  refine ⟨rfl, rfl, ?_, ?_⟩
  · have heq : normalizeRowUninit [0, 0, 0] [5, -3, 9] = [5, -3, 9] := rfl
    rw [heq]
    intro h
    norm_num at h
  · norm_num [normalizeRow]

/-- C4: `get_bcr_distribution` (`demo/get_bcr.py:45-89`,
`lookup_bcr.py:48-90`) never checks the resolved azimuth row for zero
observations: at `θ = 10°` against `lutDemo`, whose azimuth bin 0 holds
no observation at all, it returns the all-zero probability vector
`some [0, 0]` (with all-zero counts) instead of the documented
no-data sentinel `None`. -/
theorem rate_distribution_zero_row_not_sentinel :
    ((lutDemo.counts_cube.getD 0 []).map List.sum).sum = 0 ∧
    (get_bcr_distribution 10 lutDemo).2.1 = some [0, 0] ∧
    (get_bcr_distribution 10 lutDemo).2.2 = some [0, 0] ∧
    (get_bcr_distribution 10 lutDemo).2.1 ≠ none := by
  have hmain : (get_bcr_distribution 10 lutDemo).2.1 = some [0, 0] := by
    norm_num [get_bcr_distribution, lutDemo, azimuthToBin, pymod]
  refine ⟨rfl, hmain, ?_, ?_⟩
  · norm_num [get_bcr_distribution, lutDemo, azimuthToBin, pymod]
  · rw [hmain]
    simp

/-- C3 counterexample: with the symmetric edges `[-1, -1/10, 1/10, 1]`
(so `n_rate = 3`), the query `ω = rate_edges[0] = -1` lies inside
`[rate_edges[0], rate_edges[-1])`, yet the resolution of
`lookup_range.py:63-72` — which searches `abs(ω) = 1` — returns the
out-of-range sentinel. -/
theorem rate_bin_sentinel_at_lower_edge :
    ([(-1 : ℚ), -1/10, 1/10, 1].headD 0 ≤ -1) ∧
    ((-1 : ℚ) < [(-1 : ℚ), -1/10, 1/10, 1].getLastD 0) ∧
    rateToBinAbs [(-1 : ℚ), -1/10, 1/10, 1] 3 (-1) = none := by
  refine ⟨by norm_num, by norm_num, ?_⟩
  norm_num [rateToBinAbs, searchsortedRight, List.takeWhile]

/-- C3 (amended): `lookup_range_pdf` resolves the rate bin by
right-inclusive binary search over `rate_edges` applied to the
**absolute value** `|ω|`, and yields the out-of-range sentinel (never a
clamped bin) if and only if `|ω|` lies outside
`[rate_edges[0], rate_edges[-1])`; when a bin `i` is returned it is the
bin whose left edge is `≤ |ω|` and whose right edge is `> |ω|` (so a
value equal to an edge falls into the bin starting at that edge). -/
theorem rate_bin_abs_characterization (edges : List ℚ) (nRate : ℕ) (ω : ℚ)
    (hs : edges.Sorted (· < ·)) (hel : edges.length = nRate + 1) :
    (rateToBinAbs edges nRate ω = none ↔
      |ω| < edges.headD 0 ∨ edges.getLastD 0 ≤ |ω|) ∧
    (∀ i, rateToBinAbs edges nRate ω = some i →
      edges.getD i 0 ≤ |ω| ∧ |ω| < edges.getD (i + 1) 0) := by
  have hne : edges ≠ [] := by
    intro h
    rw [h] at hel
    simp at hel
  have hle := searchsortedRight_le_length edges |ω|
  set s := searchsortedRight edges |ω| with hsdef
  have hcond : ((s : ℤ) - 1 < 0 ∨ (nRate : ℤ) ≤ (s : ℤ) - 1) ↔
      (s = 0 ∨ s = edges.length) := by
    rw [hel]
    omega
  constructor
  · rw [rateToBinAbs]
    constructor
    · intro hnone
      by_cases hc : (s : ℤ) - 1 < 0 ∨ (nRate : ℤ) ≤ (s : ℤ) - 1
      · rcases hcond.mp hc with h0 | hl
        · exact Or.inl ((searchsortedRight_eq_zero_iff edges |ω| hne).mp h0)
        · exact Or.inr ((searchsortedRight_eq_length_iff edges |ω| hs hne).mp hl)
      · rw [if_neg hc] at hnone
        exact absurd hnone (by simp)
    · intro hout
      have hc : s = 0 ∨ s = edges.length := by
        rcases hout with h | h
        · exact Or.inl ((searchsortedRight_eq_zero_iff edges |ω| hne).mpr h)
        · exact Or.inr ((searchsortedRight_eq_length_iff edges |ω| hs hne).mpr h)
      rw [if_pos (hcond.mpr hc)]
  · intro i hi
    rw [rateToBinAbs] at hi
    by_cases hc : (s : ℤ) - 1 < 0 ∨ (nRate : ℤ) ≤ (s : ℤ) - 1
    · rw [if_pos hc] at hi
      exact absurd hi (by simp)
    · rw [if_neg hc] at hi
      have hi' : i = s - 1 := by
        have := Option.some_injective _ hi
        omega
      have hs1 : 1 ≤ s := by omega
      have hslt : s < edges.length := by rw [hel]; omega
      subst hi'
      constructor
      · exact searchsortedRight_getD_le edges |ω| (s - 1) (by omega)
      · have := searchsortedRight_lt_getD edges |ω| hslt
        have hsi : s - 1 + 1 = s := by omega
        rw [hsi]
        exact this

/-- C3-amended witness: edges `[-1, -1/10, 1/10, 1]`, `ω = -1/2`; the
search on `|ω| = 1/2` lands in bin 2 = `[1/10, 1)`, and the sentinel
characterization holds. -/
theorem rate_bin_abs_characterization_witness :
    List.Sorted (· < ·) [(-1 : ℚ), -1/10, 1/10, 1] ∧
    ([(-1 : ℚ), -1/10, 1/10, 1].length = 3 + 1) ∧
    ((rateToBinAbs [(-1 : ℚ), -1/10, 1/10, 1] 3 (-1/2) = none ↔
       |(-1/2 : ℚ)| < [(-1 : ℚ), -1/10, 1/10, 1].headD 0 ∨
       [(-1 : ℚ), -1/10, 1/10, 1].getLastD 0 ≤ |(-1/2 : ℚ)|) ∧
     (∀ i, rateToBinAbs [(-1 : ℚ), -1/10, 1/10, 1] 3 (-1/2) = some i →
       [(-1 : ℚ), -1/10, 1/10, 1].getD i 0 ≤ |(-1/2 : ℚ)| ∧
       |(-1/2 : ℚ)| < [(-1 : ℚ), -1/10, 1/10, 1].getD (i + 1) 0)) := by
  refine ⟨by norm_num [List.sorted_cons], by norm_num, ?_⟩
  exact rate_bin_abs_characterization [(-1 : ℚ), -1/10, 1/10, 1] 3 (-1/2)
    (by norm_num [List.sorted_cons]) (by norm_num)

theorem cumsumFrom_length (acc : ℚ) (xs : List ℚ) :
    (cumsumFrom acc xs).length = xs.length := by
  induction xs generalizing acc with
  | nil => rfl
  | cons x xs ih => simp [cumsumFrom, ih]

theorem cumsumFrom_all_eq (acc : ℚ) (xs : List ℚ) (h : ∀ v ∈ xs, v = 0) :
    ∀ y ∈ cumsumFrom acc xs, y = acc := by
  induction xs generalizing acc with
  | nil => intro y hy; simp [cumsumFrom] at hy
  | cons x xs ih =>
    intro y hy
    have hx : x = 0 := h x (by simp)
    rw [cumsumFrom] at hy
    rcases List.mem_cons.mp hy with rfl | hy'
    · rw [hx, add_zero]
    · have := ih (acc + x) (fun v hv => h v (by simp [hv])) y hy'
      rw [this, hx, add_zero]

theorem interpGo_zero_fst (x : ℚ) (hx : 0 < x) :
    ∀ (pts : List (ℚ × ℚ)), pts ≠ [] → (∀ p ∈ pts, p.1 = 0) →
      interpGo x pts = (pts.getLastD (0, 0)).2 := by
  intro pts
  induction pts with
  | nil => intro h; exact absurd rfl h
  | cons p rest ih =>
    intro _ hall
    cases rest with
    | nil =>
      obtain ⟨a, b⟩ := p
      simp [interpGo]
    | cons q rest' =>
      obtain ⟨a, b⟩ := p
      obtain ⟨c, d⟩ := q
      have hc : c = 0 := hall (c, d) (by simp)
      rw [interpGo, if_neg (by rw [hc]; exact not_lt.mpr (le_of_lt hx))]
      rw [List.getLastD_cons]
      exact ih (by simp) (fun r hr => hall r (List.mem_cons_of_mem _ hr))

theorem zip_getLastD (l1 l2 : List ℚ) (hlen : l1.length = l2.length)
    (hne : l1 ≠ []) :
    ∀ d1 d2, (l1.zip l2).getLastD (d1, d2) = (l1.getLastD d1, l2.getLastD d2) := by
  induction l1 generalizing l2 with
  | nil => exact absurd rfl hne
  | cons a t ih =>
    intro d1 d2
    cases l2 with
    | nil => simp at hlen
    | cons b t2 =>
      cases t with
      | nil =>
        cases t2 with
        | nil => simp
        | cons c t3 => simp at hlen
      | cons a' t' =>
        cases t2 with
        | nil => simp at hlen
        | cons b' t2' =>
          have hlen' : (a' :: t').length = (b' :: t2').length := by
            simpa using hlen
          rw [List.zip_cons_cons, List.getLastD_cons (d1, d2) (a, b),
            List.getLastD_cons d1 a, List.getLastD_cons d2 b]
          exact ih (b' :: t2') hlen' (by simp) a b

theorem expectation_zero_pdf (support pdf : List ℚ)
    (h : ∀ v ∈ pdf, v = 0) : expectation support pdf = 0 := by
  unfold expectation
  apply List.sum_eq_zero
  intro x hx
  obtain ⟨⟨a, b⟩, hmem, hab⟩ := List.mem_map.mp hx
  have : b = 0 := h b (List.of_mem_zip hmem).2
  rw [← hab, this, mul_zero]

/-- C6 counterexample: on a pdf summing to 0, the summary statistics of
`lookup_range.py:113-124` signal no error at all — the expectation
expression silently returns 0, the interpolated quantile returns the
last support value, and the top-5 selection returns five-or-fewer bin
indices as usual. -/
theorem summary_stats_zero_pdf_silent :
    expectation [100, 200, 300] [0, 0, 0] = 0 ∧
    quantile (1/10) [100, 200, 300] [0, 0, 0] = 300 ∧
    top5 [0, 0, 0] = [2, 1, 0] := by
  refine ⟨?_, ?_, ?_⟩
  · norm_num [expectation]
  · norm_num [quantile, cumsum, cumsumFrom, npInterp, interpGo]
  · rfl

/-- C6 (amended): `expectation`, `quantile`, and the top-5 selection of
`lookup_range.py:113-124` do **not** signal an error when the pdf sums
to zero — they silently return plain values (expectation returns 0, the
quantile returns the last support entry, top-5 returns `min 5 n`
indices); a zero-sum pdf is instead intercepted upstream by the lookup's
no-data sentinel before these statistics are ever evaluated. -/
theorem summary_stats_zero_pdf (support pdf : List ℚ)
    (hz : ∀ v ∈ pdf, v = 0) (hlen : support.length = pdf.length)
    (hne : pdf ≠ []) :
    expectation support pdf = 0 ∧
    quantile (1/10) support pdf = support.getLastD 0 ∧
    (top5 pdf).length = min 5 pdf.length := by
  refine ⟨expectation_zero_pdf support pdf hz, ?_, ?_⟩
  · unfold quantile
    have hcl : (cumsum pdf).length = pdf.length := cumsumFrom_length 0 pdf
    have hzc : ∀ y ∈ cumsum pdf, y = 0 := cumsumFrom_all_eq 0 pdf hz
    have hzne : cumsum pdf ≠ [] := by
      intro h
      rw [h] at hcl
      exact hne (List.length_eq_zero.mp hcl.symm)
    have hzipne : (cumsum pdf).zip support ≠ [] := by
      intro h
      have := congrArg List.length h
      rw [List.length_zip, hcl, hlen] at this
      simp at this
      exact hne this
    have hfst : ∀ p ∈ (cumsum pdf).zip support, (p : ℚ × ℚ).1 = 0 := by
      intro p hp
      obtain ⟨a, b⟩ := p
      exact hzc a (List.of_mem_zip hp).1
    obtain ⟨p0, rest, hsplit⟩ := List.exists_cons_of_ne_nil hzipne
    obtain ⟨a, b⟩ := p0
    have ha : a = 0 := hfst (a, b) (by rw [hsplit]; simp)
    rw [hsplit, npInterp, if_neg (by rw [ha]; norm_num), ← hsplit]
    rw [interpGo_zero_fst (1/10) (by norm_num) _ hzipne hfst]
    rw [zip_getLastD (cumsum pdf) support (by rw [hcl, hlen]) hzne 0 0]
  · rw [top5, List.length_take, List.length_reverse, List.length_map,
      List.length_insertionSort, List.length_map, List.length_range]

/-- C6-amended witness: evaluated at support `[100, 200, 300]` and the
zero pdf `[0, 0, 0]`. -/
theorem summary_stats_zero_pdf_witness :
    (∀ v ∈ ([0, 0, 0] : List ℚ), v = 0) ∧
    ([(100 : ℚ), 200, 300].length = ([0, 0, 0] : List ℚ).length) ∧
    (([0, 0, 0] : List ℚ) ≠ []) ∧
    (expectation [100, 200, 300] [0, 0, 0] = 0 ∧
     quantile (1/10) [100, 200, 300] [0, 0, 0] = [(100 : ℚ), 200, 300].getLastD 0 ∧
     (top5 [0, 0, 0]).length = min 5 ([0, 0, 0] : List ℚ).length) := by
  refine ⟨by norm_num, by norm_num, by simp, ?_⟩
  exact summary_stats_zero_pdf [100, 200, 300] [0, 0, 0] (by norm_num)
    (by norm_num) (by simp)

theorem totalCount_bump (nAz nRate nR : ℕ) (cube : ℕ → ℕ → ℕ → ℕ)
    (i j k : ℕ) (hi : i < nAz) (hj : j < nRate) (hk : k < nR) :
    totalCount nAz nRate nR (bump cube i j k) =
      totalCount nAz nRate nR cube + 1 := by
  unfold totalCount bump
  have hsplit : ∀ a b c : ℕ,
      (if a = i ∧ b = j ∧ c = k then cube a b c + 1 else cube a b c) =
        cube a b c + (if a = i ∧ b = j ∧ c = k then 1 else 0) := by
    intro a b c
    split <;> simp
  simp_rw [hsplit, Finset.sum_add_distrib]
  congr 1
  have hzero : ∀ a ∈ Finset.range nAz, a ≠ i →
      (∑ b ∈ Finset.range nRate, ∑ c ∈ Finset.range nR,
        if a = i ∧ b = j ∧ c = k then (1 : ℕ) else 0) = 0 := by
    intro a _ ha
    apply Finset.sum_eq_zero
    intro b _
    apply Finset.sum_eq_zero
    intro c _
    simp [ha]
  rw [Finset.sum_eq_single_of_mem i (Finset.mem_range.mpr hi) hzero]
  have hzero2 : ∀ b ∈ Finset.range nRate, b ≠ j →
      (∑ c ∈ Finset.range nR,
        if i = i ∧ b = j ∧ c = k then (1 : ℕ) else 0) = 0 := by
    intro b _ hb
    apply Finset.sum_eq_zero
    intro c _
    simp [hb]
  rw [Finset.sum_eq_single_of_mem j (Finset.mem_range.mpr hj) hzero2]
  simp only [true_and]
  rw [Finset.sum_ite_eq' (Finset.range nR) k (fun _ => (1 : ℕ))]
  rw [if_pos (Finset.mem_range.mpr hk)]

theorem totalCount_zero (nAz nRate nR : ℕ) :
    totalCount nAz nRate nR (fun _ _ _ => 0) = 0 := by
  unfold totalCount
  simp

theorem rateBinBuild_isSome_lt (edges : List ℚ) (nRate : ℕ) (ω : ℚ)
    (hel : edges.length = nRate + 1) {j : ℕ}
    (h : rateBinBuild edges ω = some j) : j < nRate := by
  rw [rateBinBuild] at h
  have hle := searchsortedRight_le_length edges ω
  by_cases hc : searchsortedRight edges ω = 0 ∨
      searchsortedRight edges ω = edges.length
  · rw [if_pos hc] at h
    exact absurd h (by simp)
  · rw [if_neg hc] at h
    have hj := Option.some_injective _ h
    push_neg at hc
    omega

theorem buildCounts_total_aux (azw rstep : ℚ) (nAz nRate nVec : ℕ)
    (edges : List ℚ) (haz : 0 < azw) (hdiv : azw * nAz = 360)
    (hstep : 0 < rstep) (hnv : 0 < nVec) (hel : edges.length = nRate + 1) :
    ∀ (rows : List BuildRow) (cube : ℕ → ℕ → ℕ → ℕ),
      (∀ row ∈ rows, 0 ≤ row.bearing ∧ row.bearing < 360 ∧ 0 ≤ row.dist) →
      totalCount nAz nRate nVec
          (rows.foldl (buildStep azw rstep nVec edges) cube) =
        totalCount nAz nRate nVec cube +
          rows.countP (fun row => (rateBinBuild edges row.rate).isSome) := by
  intro rows
  induction rows with
  | nil => intro cube _; simp
  | cons r rows ih =>
    intro cube hrows
    have hr := hrows r (by simp)
    have hrest : ∀ row ∈ rows, 0 ≤ row.bearing ∧ row.bearing < 360 ∧
        0 ≤ row.dist := fun row hm => hrows row (List.mem_cons_of_mem _ hm)
    rw [List.foldl_cons, ih _ hrest, List.countP_cons]
    rcases hsome : rateBinBuild edges r.rate with _ | j
    · rw [buildStep, hsome]
      simp [hsome]
    · have hstepeq : buildStep azw rstep nVec edges cube r =
          bump cube (bearingBinBuild azw r.bearing).toNat j
            (distBin rstep nVec r.dist).toNat := by
        rw [buildStep, hsome]
      rw [hstepeq]
      have hi : (bearingBinBuild azw r.bearing).toNat < nAz := by
        have h1 := floor_div_nonneg azw r.bearing haz hr.1
        have h2 := floor_div_lt azw r.bearing nAz haz (by rw [hdiv]; exact hr.2.1)
        rw [bearingBinBuild]
        omega
      have hj : j < nRate := rateBinBuild_isSome_lt edges nRate r.rate hel hsome
      have hk : (distBin rstep nVec r.dist).toNat < nVec := by
        have h1 : distBin rstep nVec r.dist ≤ (nVec : ℤ) - 1 := min_le_right _ _
        rw [distBin]
        omega
      rw [totalCount_bump nAz nRate nVec cube _ _ _ hi hj hk]
      simp [hsome]
      omega

/-- C5: the builders drop exactly the rows whose bearing rate lies
outside the interval covered by `rate_edges` (left-closed, right-open),
and every in-range row contributes exactly one count to exactly one
cell, so the count cube's cells sum to the number of in-range input
rows. -/
theorem build_total_is_in_range_rows (azw rstep : ℚ) (nAz nRate nVec : ℕ)
    (edges : List ℚ) (rows : List BuildRow) (haz : 0 < azw)
    (hdiv : azw * nAz = 360) (hstep : 0 < rstep) (hnv : 0 < nVec)
    (hs : edges.Sorted (· < ·)) (hel : edges.length = nRate + 1)
    (hrows : ∀ row ∈ rows, 0 ≤ row.bearing ∧ row.bearing < 360 ∧
      0 ≤ row.dist) :
    totalCount nAz nRate nVec (buildCounts azw rstep nVec edges rows) =
      rows.countP (fun row => (rateBinBuild edges row.rate).isSome) ∧
    ∀ ω : ℚ, (rateBinBuild edges ω).isSome ↔
      (edges.headD 0 ≤ ω ∧ ω < edges.getLastD 0) := by
  constructor
  · rw [buildCounts,
      buildCounts_total_aux azw rstep nAz nRate nVec edges haz hdiv hstep
        hnv hel rows _ hrows, totalCount_zero]
    omega
  · intro ω
    have hne : edges ≠ [] := by
      intro h
      rw [h] at hel
      simp at hel
    constructor
    · intro hio
      rw [rateBinBuild] at hio
      by_cases hc : searchsortedRight edges ω = 0 ∨
          searchsortedRight edges ω = edges.length
      · rw [if_pos hc] at hio
        simp at hio
      · push_neg at hc
        constructor
        · by_contra hlt
          exact hc.1 ((searchsortedRight_eq_zero_iff edges ω hne).mpr
            (lt_of_not_le hlt))
        · by_contra hge
          exact hc.2 ((searchsortedRight_eq_length_iff edges ω hs hne).mpr
            (le_of_not_lt hge))
    · intro ⟨hlo, hhi⟩
      rw [rateBinBuild]
      have h0 : searchsortedRight edges ω ≠ 0 := by
        intro h
        exact absurd ((searchsortedRight_eq_zero_iff edges ω hne).mp h)
          (not_lt.mpr hlo)
      have hl : searchsortedRight edges ω ≠ edges.length := by
        intro h
        exact absurd ((searchsortedRight_eq_length_iff edges ω hs hne).mp h)
          (not_le.mpr hhi)
      rw [if_neg (by push_neg; exact ⟨h0, hl⟩)]
      simp

/-- C5 witness: edges `[-1, 0, 1]`, one in-range row (rate 1/2) and one
out-of-range row (rate 5): the cube totals exactly one count. -/
theorem build_total_is_in_range_rows_witness :
    0 < (180 : ℚ) ∧ (180 : ℚ) * (2 : ℕ) = 360 ∧ 0 < (10 : ℚ) ∧
    0 < 2 ∧ List.Sorted (· < ·) [(-1 : ℚ), 0, 1] ∧
    ([(-1 : ℚ), 0, 1].length = 2 + 1) ∧
    (∀ row ∈ [(⟨10, 1/2, 5⟩ : BuildRow), ⟨200, 5, 3⟩],
      0 ≤ row.bearing ∧ row.bearing < 360 ∧ 0 ≤ row.dist) ∧
    (totalCount 2 2 2
        (buildCounts 180 10 2 [(-1 : ℚ), 0, 1]
          [(⟨10, 1/2, 5⟩ : BuildRow), ⟨200, 5, 3⟩]) =
      [(⟨10, 1/2, 5⟩ : BuildRow), ⟨200, 5, 3⟩].countP
        (fun row => (rateBinBuild [(-1 : ℚ), 0, 1] row.rate).isSome) ∧
     ∀ ω : ℚ, (rateBinBuild [(-1 : ℚ), 0, 1] ω).isSome ↔
       ([(-1 : ℚ), 0, 1].headD 0 ≤ ω ∧ ω < [(-1 : ℚ), 0, 1].getLastD 0)) := by
  refine ⟨by norm_num, by norm_num, by norm_num, by norm_num,
    by norm_num [List.sorted_cons], by norm_num, ?_, ?_⟩
  · intro row hrow
    rcases List.mem_cons.mp hrow with rfl | hrow'
    · exact ⟨by norm_num, by norm_num, by norm_num⟩
    · rcases List.mem_cons.mp hrow' with rfl | h
      · exact ⟨by norm_num, by norm_num, by norm_num⟩
      · simp at h
  · exact (build_total_is_in_range_rows 180 10 2 2 2 [(-1 : ℚ), 0, 1]
      [(⟨10, 1/2, 5⟩ : BuildRow), ⟨200, 5, 3⟩] (by norm_num) (by norm_num)
      (by norm_num) (by norm_num) (by norm_num [List.sorted_cons])
      (by norm_num)
      (by
        intro row hrow
        rcases List.mem_cons.mp hrow with rfl | hrow'
        · exact ⟨by norm_num, by norm_num, by norm_num⟩
        · rcases List.mem_cons.mp hrow' with rfl | h
          · exact ⟨by norm_num, by norm_num, by norm_num⟩
          · simp at h))

/-- C2: for a lookup table whose `prob_cube` is the guarded
normalization of its `counts_cube` (any table written by
`build_range_lut.py`), `get_range_distribution` returns the no-data
sentinel exactly when ω's rate bin is out of range of `rate_edges` or
the resolved (θ, ω) cell's count row sums to zero; otherwise it returns
three vectors of length `n_r` whose pdf sums to 1. -/
theorem range_distribution_contract (θ ω : ℚ) (lut : Lut)
    (nAz nRate nR : ℕ)
    (hprob : lut.prob_cube = lut.counts_cube.map (List.map normalizeRow))
    (hrect : Rect3 nAz nRate nR lut.counts_cube)
    (hs : lut.rate_edges.Sorted (· < ·))
    (hel : lut.rate_edges.length = nRate + 1)
    (haz : 0 < lut.az_bin_deg) (hdiv : lut.az_bin_deg * nAz = 360)
    (hnaz : 0 < nAz) (hrv : lut.range_vec.length = nR) :
    (get_range_distribution θ ω lut = none ↔
      ω < lut.rate_edges.headD 0 ∨ lut.rate_edges.getLastD 0 ≤ ω ∨
      ((lut.counts_cube.getD (azimuthToBin lut.az_bin_deg θ).toNat []).getD
        (searchsortedRight lut.rate_edges ω - 1) []).sum = 0) ∧
    (∀ out, get_range_distribution θ ω lut = some out →
      out.1.length = nR ∧ out.2.1.length = nR ∧ out.2.2.length = nR ∧
      out.2.1.sum = 1) := by
  obtain ⟨hclen, hplanes⟩ := hrect
  have haz0 : 0 ≤ azimuthToBin lut.az_bin_deg θ :=
    azimuthToBin_nonneg _ _ haz
  have hazlt : azimuthToBin lut.az_bin_deg θ < nAz :=
    azimuthToBin_lt _ _ _ haz hdiv
  have hccne : lut.counts_cube ≠ [] := by
    intro h
    rw [h] at hclen
    simp at hclen
    omega
  obtain ⟨p0, rest, hcc⟩ := List.exists_cons_of_ne_nil hccne
  have hproblen : lut.prob_cube.length = nAz := by
    rw [hprob, List.length_map, hclen]
  have hshape1 : shape1 lut.prob_cube = nRate := by
    rw [shape1, hprob, hcc]
    simp only [List.map_cons, List.headD_cons]
    rw [List.length_map]
    exact (hplanes p0 (by rw [hcc]; simp)).1
  have hedne : lut.rate_edges ≠ [] := by
    intro h
    rw [h] at hel
    simp at hel
  have hsle := searchsortedRight_le_length lut.rate_edges ω
  have hcond_iff :
      (azimuthToBin lut.az_bin_deg θ < 0 ∨
        (lut.prob_cube.length : ℤ) ≤ azimuthToBin lut.az_bin_deg θ ∨
        ((searchsortedRight lut.rate_edges ω : ℤ) - 1) < 0 ∨
        (shape1 lut.prob_cube : ℤ) ≤
          (searchsortedRight lut.rate_edges ω : ℤ) - 1) ↔
        (searchsortedRight lut.rate_edges ω = 0 ∨
          searchsortedRight lut.rate_edges ω = lut.rate_edges.length) := by
    rw [hproblen, hshape1, hel]
    omega
  by_cases hc : searchsortedRight lut.rate_edges ω = 0 ∨
      searchsortedRight lut.rate_edges ω = lut.rate_edges.length
  · have hres : get_range_distribution θ ω lut = none := by
      rw [get_range_distribution]
      rw [if_pos (hcond_iff.mpr hc)]
    refine ⟨⟨fun _ => ?_, fun _ => hres⟩, fun out hout => ?_⟩
    · rcases hc with h0 | hl
      · exact Or.inl ((searchsortedRight_eq_zero_iff _ ω hedne).mp h0)
      · exact Or.inr (Or.inl
          ((searchsortedRight_eq_length_iff _ ω hs hedne).mp hl))
    · rw [hres] at hout
      exact absurd hout (by simp)
  · push_neg at hc
    have hs1 : 1 ≤ searchsortedRight lut.rate_edges ω := by omega
    have hsnR : searchsortedRight lut.rate_edges ω ≤ nRate := by omega
    have hnlo : ¬ ω < lut.rate_edges.headD 0 := by
      intro h
      exact hc.1 ((searchsortedRight_eq_zero_iff _ ω hedne).mpr h)
    have hnhi : ¬ lut.rate_edges.getLastD 0 ≤ ω := by
      intro h
      exact hc.2 ((searchsortedRight_eq_length_iff _ ω hs hedne).mpr h)
    have haznat : (azimuthToBin lut.az_bin_deg θ).toNat < nAz := by omega
    have haznat' : (azimuthToBin lut.az_bin_deg θ).toNat <
        lut.counts_cube.length := by omega
    have hplane := hplanes _ (getD_mem' lut.counts_cube _ haznat')
    have hplen : (lut.counts_cube.getD
        (azimuthToBin lut.az_bin_deg θ).toNat []).length = nRate := hplane.1
    have hrow := hplane.2 _ (getD_mem _ (searchsortedRight lut.rate_edges ω - 1)
      (by omega))
    have hpdf : (lut.prob_cube.getD (azimuthToBin lut.az_bin_deg θ).toNat
          []).getD (searchsortedRight lut.rate_edges ω - 1) [] =
        normalizeRow ((lut.counts_cube.getD
          (azimuthToBin lut.az_bin_deg θ).toNat []).getD
            (searchsortedRight lut.rate_edges ω - 1) []) := by
      rw [hprob, getD_map_map_normalizeRow _ _ haznat',
        getD_map_normalizeRow _ _ (by omega)]
    have htonat : ((searchsortedRight lut.rate_edges ω : ℤ) - 1).toNat =
        searchsortedRight lut.rate_edges ω - 1 := by omega
    have hres : get_range_distribution θ ω lut =
        (if (normalizeRow ((lut.counts_cube.getD
            (azimuthToBin lut.az_bin_deg θ).toNat []).getD
              (searchsortedRight lut.rate_edges ω - 1) [])).sum = 0
          then none
          else some (lut.range_vec,
            normalizeRow ((lut.counts_cube.getD
              (azimuthToBin lut.az_bin_deg θ).toNat []).getD
                (searchsortedRight lut.rate_edges ω - 1) []),
            (lut.counts_cube.getD
              (azimuthToBin lut.az_bin_deg θ).toNat []).getD
                (searchsortedRight lut.rate_edges ω - 1) [])) := by
      rw [get_range_distribution]
      rw [if_neg (fun hcond => absurd (hcond_iff.mp hcond)
        (by push_neg; exact hc))]
      rw [htonat, hpdf]
    set row := (lut.counts_cube.getD
      (azimuthToBin lut.az_bin_deg θ).toNat []).getD
        (searchsortedRight lut.rate_edges ω - 1) [] with hrowdef
    constructor
    · rw [hres]
      by_cases hz : row.sum = 0
      · rw [if_pos ((normalizeRow_sum_eq_zero_iff row).mpr hz)]
        simp [hz]
      · rw [if_neg (fun h => hz ((normalizeRow_sum_eq_zero_iff row).mp h))]
        exact iff_of_false (by simp)
          (by rw [not_or, not_or]; exact ⟨hnlo, hnhi, hz⟩)
    · intro out hout
      rw [hres] at hout
      by_cases hz : row.sum = 0
      · rw [if_pos ((normalizeRow_sum_eq_zero_iff row).mpr hz)] at hout
        exact absurd hout (by simp)
      · rw [if_neg (fun h => hz ((normalizeRow_sum_eq_zero_iff row).mp h))]
          at hout
        have := Option.some_injective _ hout
        rw [← this]
        refine ⟨hrv, ?_, hrow, ?_⟩
        · rw [normalizeRow_length]
          exact hrow
        · rw [normalizeRow_sum, if_neg hz]

/-- C2 witness: `lutDemo` satisfies the built-model hypotheses; the
query `θ = 200°`, `ω = -1/2` resolves to azimuth bin 1, rate bin 0,
whose count row `[1, 0]` backs the returned pdf `[1, 0]`. -/
theorem range_distribution_contract_witness :
    (lutDemo.prob_cube = lutDemo.counts_cube.map (List.map normalizeRow)) ∧
    Rect3 2 2 2 lutDemo.counts_cube ∧
    List.Sorted (· < ·) lutDemo.rate_edges ∧
    (lutDemo.rate_edges.length = 2 + 1) ∧
    0 < lutDemo.az_bin_deg ∧ lutDemo.az_bin_deg * (2 : ℕ) = 360 ∧
    0 < 2 ∧ lutDemo.range_vec.length = 2 ∧
    ((get_range_distribution 200 (-1/2) lutDemo = none ↔
       (-1/2 : ℚ) < lutDemo.rate_edges.headD 0 ∨
       lutDemo.rate_edges.getLastD 0 ≤ (-1/2 : ℚ) ∨
       ((lutDemo.counts_cube.getD
         (azimuthToBin lutDemo.az_bin_deg 200).toNat []).getD
           (searchsortedRight lutDemo.rate_edges (-1/2) - 1) []).sum = 0) ∧
     (∀ out, get_range_distribution 200 (-1/2) lutDemo = some out →
       out.1.length = 2 ∧ out.2.1.length = 2 ∧ out.2.2.length = 2 ∧
       out.2.1.sum = 1)) := by
  have hprob : lutDemo.prob_cube =
      lutDemo.counts_cube.map (List.map normalizeRow) := by
    norm_num [lutDemo, normalizeRow]
  have hrect : Rect3 2 2 2 lutDemo.counts_cube := by
    refine ⟨rfl, ?_⟩
    intro plane hp
    rcases List.mem_cons.mp hp with rfl | hp'
    · refine ⟨rfl, ?_⟩
      intro r hr
      rcases List.mem_cons.mp hr with rfl | hr'
      · rfl
      · rcases List.mem_cons.mp hr' with rfl | h
        · rfl
        · simp at h
    · rcases List.mem_cons.mp hp' with rfl | h
      · refine ⟨rfl, ?_⟩
        intro r hr
        rcases List.mem_cons.mp hr with rfl | hr'
        · rfl
        · rcases List.mem_cons.mp hr' with rfl | h
          · rfl
          · simp at h
      · simp at h
  refine ⟨hprob, hrect, by norm_num [lutDemo, List.sorted_cons],
    by norm_num [lutDemo], by norm_num [lutDemo], by norm_num [lutDemo],
    by norm_num, by norm_num [lutDemo], ?_⟩
  exact range_distribution_contract 200 (-1/2) lutDemo 2 2 2 hprob hrect
    (by norm_num [lutDemo, List.sorted_cons]) (by norm_num [lutDemo])
    (by norm_num [lutDemo]) (by norm_num [lutDemo]) (by norm_num)
    (by norm_num [lutDemo])

theorem interpGo_lb (x : ℚ) :
    ∀ (rest : List (ℚ × ℚ)) (x0 y0 : ℚ), Mono2 ((x0, y0) :: rest) →
      x0 ≤ x → y0 ≤ interpGo x ((x0, y0) :: rest) := by
  intro rest
  induction rest with
  | nil =>
    intro x0 y0 _ _
    simp [interpGo]
  | cons q rest' ih =>
    intro x0 y0 hm hx
    obtain ⟨x1, y1⟩ := q
    have h01 : x0 ≤ x1 ∧ y0 ≤ y1 := (List.chain'_cons.mp hm).1
    have hm' : Mono2 ((x1, y1) :: rest') := (List.chain'_cons.mp hm).2
    rw [interpGo]
    by_cases hx1 : x < x1
    · rw [if_pos hx1]
      by_cases hxx0 : x = x0
      · rw [if_pos hxx0]
      · rw [if_neg hxx0]
        have hx0lt : x0 < x := lt_of_le_of_ne hx (Ne.symm hxx0)
        have hnn : 0 ≤ (x - x0) * (y1 - y0) / (x1 - x0) :=
          div_nonneg (mul_nonneg (by linarith) (by linarith)) (by linarith)
        linarith
    · rw [if_neg hx1]
      have := ih x1 y1 hm' (le_of_not_lt hx1)
      linarith [h01.2]

theorem interpGo_mono (x x' : ℚ) (hxx : x ≤ x') :
    ∀ (rest : List (ℚ × ℚ)) (x0 y0 : ℚ), Mono2 ((x0, y0) :: rest) →
      x0 ≤ x → interpGo x ((x0, y0) :: rest) ≤ interpGo x' ((x0, y0) :: rest) := by
  intro rest
  induction rest with
  | nil =>
    intro x0 y0 _ _
    simp [interpGo]
  | cons q rest' ih =>
    intro x0 y0 hm hx0
    obtain ⟨x1, y1⟩ := q
    have h01 : x0 ≤ x1 ∧ y0 ≤ y1 := (List.chain'_cons.mp hm).1
    have hm' : Mono2 ((x1, y1) :: rest') := (List.chain'_cons.mp hm).2
    have hx0' : x0 ≤ x' := le_trans hx0 hxx
    rw [interpGo, interpGo]
    by_cases hb : x' < x1
    · have hxa : x < x1 := lt_of_le_of_lt hxx hb
      rw [if_pos hxa, if_pos hb]
      by_cases hx'0 : x' = x0
      · have hxx0 : x = x0 := le_antisymm (hx'0 ▸ hxx) hx0
        rw [if_pos hxx0, if_pos hx'0]
      · rw [if_neg hx'0]
        have hx0x' : x0 < x' := lt_of_le_of_ne hx0' (Ne.symm hx'0)
        by_cases hxx0 : x = x0
        · rw [if_pos hxx0]
          have hnn : 0 ≤ (x' - x0) * (y1 - y0) / (x1 - x0) :=
            div_nonneg (mul_nonneg (by linarith) (by linarith)) (by linarith)
          linarith
        · rw [if_neg hxx0]
          have hx0x : x0 < x := lt_of_le_of_ne hx0 (Ne.symm hxx0)
          have hd : (0 : ℚ) < x1 - x0 := by linarith
          have hmul : (x - x0) * (y1 - y0) ≤ (x' - x0) * (y1 - y0) :=
            mul_le_mul_of_nonneg_right (by linarith) (by linarith)
          have := (div_le_div_iff_of_pos_right hd).mpr hmul
          linarith
    · rw [if_neg hb]
      by_cases hxa : x < x1
      · rw [if_pos hxa]
        have hub : (if x = x0 then y0
            else y0 + (x - x0) * (y1 - y0) / (x1 - x0)) ≤ y1 := by
          by_cases hxx0 : x = x0
          · rw [if_pos hxx0]
            exact h01.2
          · rw [if_neg hxx0]
            have hx0x : x0 < x := lt_of_le_of_ne hx0 (Ne.symm hxx0)
            have hd : (0 : ℚ) < x1 - x0 := by linarith
            have hfrac : (x - x0) * (y1 - y0) / (x1 - x0) ≤ y1 - y0 := by
              rw [div_le_iff₀ hd]
              calc (x - x0) * (y1 - y0) ≤ (x1 - x0) * (y1 - y0) :=
                    mul_le_mul_of_nonneg_right (by linarith) (by linarith)
                _ = (y1 - y0) * (x1 - x0) := mul_comm _ _
            linarith
        have hlb := interpGo_lb x' rest' x1 y1 hm' (le_of_not_lt hb)
        linarith
      · rw [if_neg hxa]
        exact ih x1 y1 hm' (le_of_not_lt hxa)

theorem npInterp_mono (x x' : ℚ) (hxx : x ≤ x') (pts : List (ℚ × ℚ))
    (hm : Mono2 pts) : npInterp x pts ≤ npInterp x' pts := by
  cases pts with
  | nil => simp [npInterp]
  | cons p rest =>
    obtain ⟨x0, y0⟩ := p
    rw [npInterp, npInterp]
    by_cases hb : x' < x0
    · rw [if_pos (lt_of_le_of_lt hxx hb), if_pos hb]
    · rw [if_neg hb]
      by_cases ha : x < x0
      · rw [if_pos ha]
        exact interpGo_lb x' rest x0 y0 hm (le_of_not_lt hb)
      · rw [if_neg ha]
        exact interpGo_mono x x' hxx rest x0 y0 hm (le_of_not_lt ha)

theorem chain'_zip (r t : ℚ → ℚ → Prop) :
    ∀ (xs ys : List ℚ), List.Chain' r xs → List.Chain' t ys →
      List.Chain' (fun p q => r p.1 q.1 ∧ t p.2 q.2) (xs.zip ys) := by
  intro xs
  induction xs with
  | nil =>
    intro ys _ _
    simp
  | cons a xs' ih =>
    intro ys hx hy
    cases ys with
    | nil => simp
    | cons b ys' =>
      cases xs' with
      | nil => simp
      | cons a' xs'' =>
        cases ys' with
        | nil => simp
        | cons b' ys'' =>
          rw [List.zip_cons_cons, List.zip_cons_cons]
          refine List.chain'_cons.mpr ⟨⟨(List.chain'_cons.mp hx).1,
            (List.chain'_cons.mp hy).1⟩, ?_⟩
          rw [← List.zip_cons_cons]
          exact ih (b' :: ys'') (List.chain'_cons.mp hx).2
            (List.chain'_cons.mp hy).2

theorem cumsumFrom_chain (xs : List ℚ) (h : ∀ v ∈ xs, 0 ≤ v) :
    ∀ acc, List.Chain' (· ≤ ·) (cumsumFrom acc xs) := by
  induction xs with
  | nil =>
    intro acc
    simp [cumsumFrom]
  | cons x xs' ih =>
    intro acc
    rw [cumsumFrom]
    apply List.chain'_cons'.mpr
    refine ⟨?_, ih (fun v hv => h v (List.mem_cons_of_mem _ hv)) (acc + x)⟩
    intro y hy
    cases xs' with
    | nil => simp [cumsumFrom] at hy
    | cons z zs =>
      rw [cumsumFrom] at hy
      simp only [List.head?_cons, Option.mem_def, Option.some.injEq] at hy
      have hz : 0 ≤ z := h z (by simp)
      linarith [hy.symm ▸ le_refl y]

/-- C9: for a pdf with nonnegative entries summing to 1 over a strictly
increasing support, the interpolated quantiles of
`lookup_range.py:115-116` are monotone in the level:
q(0.1) ≤ q(0.5) ≤ q(0.9). -/
theorem quantile_monotone (support pdf : List ℚ)
    (hp : ∀ v ∈ pdf, 0 ≤ v) (hsum : pdf.sum = 1)
    (hsupp : List.Chain' (· < ·) support) :
    quantile (1/10) support pdf ≤ quantile (1/2) support pdf ∧
    quantile (1/2) support pdf ≤ quantile (9/10) support pdf := by
  have hm : Mono2 ((cumsum pdf).zip support) := by
    apply chain'_zip
    · exact cumsumFrom_chain pdf hp 0
    · exact List.Chain'.imp (fun a b hab => le_of_lt hab) hsupp
  exact ⟨npInterp_mono (1/10) (1/2) (by norm_num) _ hm,
    npInterp_mono (1/2) (9/10) (by norm_num) _ hm⟩

/-- C9 witness: pdf `[1/2, 1/2]` over support `[100, 300]`; the three
quantiles evaluate to 100, 100 and 260. -/
theorem quantile_monotone_witness :
    (∀ v ∈ ([1/2, 1/2] : List ℚ), 0 ≤ v) ∧
    (([1/2, 1/2] : List ℚ).sum = 1) ∧
    List.Chain' (· < ·) [(100 : ℚ), 300] ∧
    (quantile (1/10) [(100 : ℚ), 300] [1/2, 1/2] ≤
       quantile (1/2) [(100 : ℚ), 300] [1/2, 1/2] ∧
     quantile (1/2) [(100 : ℚ), 300] [1/2, 1/2] ≤
       quantile (9/10) [(100 : ℚ), 300] [1/2, 1/2]) := by
  refine ⟨by norm_num, by norm_num,
    by norm_num [List.chain'_cons, List.chain'_singleton], ?_⟩
  exact quantile_monotone [100, 300] [1/2, 1/2] (by norm_num) (by norm_num)
    (by norm_num [List.chain'_cons, List.chain'_singleton])

end PlotSeaMap
